import Mathlib

/-
  Verification development for the etl_validator repository.

  The embedding below translates the two components of the repository:
  - src/validation/validator.py   (ontology_validator and its post-processing)
  - src/validation/validation_utils.py (validate_iso2)
  - src/transformer/ColumnBinner.py    (ColumnBinner.transform, pandas branch)

  Dataframes are modelled columnar: a list of named columns of cells plus an
  explicit index of row labels (pandas row identity).  Cells are null, string
  or numeric (rationals stand in for the numeric values exercised here).
  The external pycountry library is modelled by two parameters: the list of
  lowercase ISO-2 codes and a fuzzy-match predicate (whether
  pc.countries.search_fuzzy succeeds on a lowered string).
-/

namespace EtlValidator

/-- Cell of a dataframe: null (None/NaN), a string, or a number. -/
inductive CellValue where
  | vnull : CellValue
  | vstr (s : String) : CellValue
  | vnum (q : ℚ) : CellValue
deriving DecidableEq

/-- Whether a cell holds a Python str (the isinstance(country, str) test). -/
def CellValue.isString : CellValue → Bool
  | .vstr _ => true
  | _ => false

/-- Whether a cell is numeric or null (data pd.cut accepts). -/
def CellValue.isNumOrNull : CellValue → Bool
  | .vnum _ => true
  | .vnull => true
  | _ => false

/-- Columnar dataframe: named columns plus the row-label index. -/
structure DF where
  cols : List (String × List CellValue)
  index : List Int
deriving DecidableEq

/-- df.columns. -/
def DF.columns (df : DF) : List String := df.cols.map Prod.fst

/-- Number of rows. -/
def DF.nRows (df : DF) : Nat := df.index.length

/-- Column lookup, df[c]; none when the column is absent. -/
def getCol (df : DF) (c : String) : Option (List CellValue) :=
  (df.cols.find? (fun p => p.1 == c)).map Prod.snd

/-- Column assignment df[c] = vals: replaces the column in place when present,
appends it at the end otherwise (pandas assignment semantics). -/
def setCol (df : DF) (c : String) (vals : List CellValue) : DF :=
  if df.columns.contains c then
    ⟨df.cols.map (fun p => if p.1 == c then (c, vals) else p), df.index⟩
  else
    ⟨df.cols ++ [(c, vals)], df.index⟩

/-- Keep the entries of a column whose row label satisfies p (df.loc row filter). -/
def maskKeep (idx : List Int) (p : Int → Bool) (l : List CellValue) : List CellValue :=
  ((l.zip idx).filter (fun x => p x.2)).map Prod.fst

/-- Keep the rows of a dataframe whose label satisfies p. -/
def filterRows (df : DF) (p : Int → Bool) : DF :=
  ⟨df.cols.map (fun c => (c.1, maskKeep df.index p c.2)), df.index.filter p⟩

/-- One row of the per-rule summary table (result_df of the source). -/
structure SummaryRow where
  column_name : String
  validation_type : String
  validation_rule : String
  pass : Bool
  count : Nat
  error_rate : ℚ
  distinct_values : List CellValue
deriving DecidableEq

/-- Per-cell result table (result_index of the source): the hash-identity
columns copied from the input, plus one boolean column per applied
(column, rule) pair. -/
structure CellTable where
  hashCols : List (String × List CellValue)
  boolCols : List (String × List Bool)
deriving DecidableEq

/-- Helper for dropDuplicates: keep elements not seen before. -/
def dropDupAux {α : Type} [DecidableEq α] (seen : List α) : List α → List α
  | [] => []
  | r :: rest =>
      if seen.contains r then dropDupAux seen rest
      else r :: dropDupAux (r :: seen) rest

/-- Keep the first occurrence of each element, dropping later duplicates:
the behaviour of both pandas drop_duplicates and Series.unique. -/
def dropDuplicates {α : Type} [DecidableEq α] (l : List α) : List α :=
  dropDupAux [] l

/-- Modelled from the spec: the helper `_append_result` of the repository is
not under src/; per the spec each validator appends one SummaryRow (count of
failing cells, error_rate = count / total rows, pass iff count is zero, a
sample of offending distinct values) and appends the boolean mask to the
cell table as a column named column_rule. -/
def appendResult (col vtype vrule : String) (mask : List Bool)
    (offending : List CellValue) (acc : List SummaryRow × CellTable) :
    List SummaryRow × CellTable :=
  let cnt := (mask.filter (fun b => !b)).length
  let row : SummaryRow :=
    ⟨col, vtype, vrule, cnt == 0, cnt, mkRat cnt mask.length, offending⟩
  (acc.1 ++ [row],
   ⟨acc.2.hashCols, acc.2.boolCols ++ [(col ++ "_" ++ vrule, mask)]⟩)

/-- Lowercase an ASCII character (Python str.lower on the ASCII range). -/
def pyLowerChar (c : Char) : Char :=
  if 'A' ≤ c ∧ c ≤ 'Z' then Char.ofNat (c.toNat + 32) else c

/-- Python's str.lower on the ASCII strings the validator handles. -/
def pyLower (s : String) : String := ⟨s.data.map pyLowerChar⟩

/-- Deny-list of continents and world (validation_utils.py line 38). -/
def unallowed_values : List String :=
  ["aisa", "africa", "europe", "north america", "south america",
   "australia/oceania", "antarctica"]

/-- Whether the first character list occurs contiguously inside the second. -/
def listContainsSeq (pat : List Char) : List Char → Bool
  | [] => pat.isEmpty
  | c :: rest => pat.isPrefixOf (c :: rest) || listContainsSeq pat rest

/-- Python's substring test, "world" in country_clean. -/
def containsWorld (s : String) : Bool :=
  listContainsSeq "world".toList s.toList

/-- Per-string invalidity test of validate_iso2 (lines 48-62): the lowered
value is deny-listed or contains "world"; otherwise a 2-character value must
be an ISO-2 code and any other length must have a fuzzy pycountry match. -/
def iso2Invalid (fuzzy : String → Bool) (iso_2 : List String) (country : String) : Bool :=
  let country_clean := pyLower country
  if unallowed_values.contains country_clean || containsWorld country_clean then
    true
  else if country_clean.length == 2 then
    !(iso_2.contains country_clean)
  else
    !(fuzzy country_clean)

/-- country_invalid of validate_iso2: the distinct values of the column that
are strings failing iso2Invalid. -/
def iso2InvalidList (fuzzy : String → Bool) (iso_2 : List String)
    (cells : List CellValue) : List CellValue :=
  (dropDuplicates cells).filter (fun v =>
    match v with
    | .vstr s => iso2Invalid fuzzy iso_2 s
    | _ => false)

/-- val_result of validate_iso2: the per-cell mask, true when the cell is not
in the collected invalid set. -/
def iso2CellMask (fuzzy : String → Bool) (iso_2 : List String)
    (cells : List CellValue) : List Bool :=
  cells.map (fun v => !((iso2InvalidList fuzzy iso_2 cells).contains v))

/-- Body of the per-column loop of validate_iso2: a column absent from the
dataframe is skipped; otherwise the mask and summary row are appended. -/
def iso2Step (fuzzy : String → Bool) (iso_2 : List String) (df : DF)
    (acc : List SummaryRow × CellTable) (col : String) :
    List SummaryRow × CellTable :=
  match getCol df col with
  | none => acc
  | some cells =>
      appendResult col "iso2" "iso2" (iso2CellMask fuzzy iso_2 cells)
        (iso2InvalidList fuzzy iso_2 cells) acc

/-- validate_iso2 (validation_utils.py lines 8-73), with the pycountry data
abstracted into the fuzzy predicate and the ISO-2 code list. -/
def validate_iso2 (fuzzy : String → Bool) (iso_2 : List String) (df : DF)
    (rule : List String) (acc : List SummaryRow × CellTable) :
    List SummaryRow × CellTable :=
  rule.foldl (iso2Step fuzzy iso_2 df) acc

/-- hard_validation (validator.py line 14). -/
def hard_validation : List String := ["non_nullable", "allowed_values", "type"]

/-- error_df (validator.py line 148): the failing summary rows. -/
def errorRows (rows : List SummaryRow) : List SummaryRow :=
  rows.filter (fun r => !r.pass)

/-- hard_error_df (validator.py line 149): failing rows whose validation_rule
field is listed in hard_validation. -/
def hardErrorRows (rows : List SummaryRow) : List SummaryRow :=
  (errorRows rows).filter (fun r => hard_validation.contains r.validation_rule)

/-- soft_error_df before the tolerance cut (validator.py line 150). -/
def softErrorRowsAll (rows : List SummaryRow) : List SummaryRow :=
  (errorRows rows).filter (fun r => !(hard_validation.contains r.validation_rule))

/-- soft_error_df (validator.py line 151): soft failing rows at or above the
error tolerance. -/
def softErrorRows (tol : ℚ) (rows : List SummaryRow) : List SummaryRow :=
  (softErrorRowsAll rows).filter (fun r => decide (tol ≤ r.error_rate))

/-- pass_validation (validator.py line 152). -/
def passValidation (rows : List SummaryRow) : Bool := (errorRows rows).isEmpty

/-- pass_hard_validation (validator.py line 153). -/
def passHardValidation (rows : List SummaryRow) : Bool := (hardErrorRows rows).isEmpty

/-- pass_soft_validation (validator.py line 154). -/
def passSoftValidation (tol : ℚ) (rows : List SummaryRow) : Bool :=
  (softErrorRows tol rows).isEmpty

/-- np.all over the non-hash columns of the cell table at row position i.
The boolean rule columns decide the outcome; the stamped time_stamp column is
also selected by the source but its datetime values are always truthy. -/
def rowAllTrue (t : CellTable) (i : Nat) : Bool :=
  t.boolCols.all (fun bc => bc.2.getD i true)

/-- Row positions selected by np.where on the negated np.all (validator.py
line 158): the positions of rows failing at least one rule column. -/
def failPositions (t : CellTable) (n : Nat) : List Nat :=
  (List.range n).filter (fun i => !(rowAllTrue t i))

/-- Output record of ontology_validator.  The returned message_df is not
modelled (none of the verified statements concern it); the time_stamp column
stamped on both tables is carried as the single field time_stamp. -/
structure OVOut where
  pass_validation : Bool
  error_df : List SummaryRow
  pass_hard_validation : Bool
  hard_error_df : List SummaryRow
  pass_soft_validation : Bool
  soft_error_df : List SummaryRow
  cell_table : CellTable
  error_index_positions : List Nat
  error_index_labels : List Int
  clean_df : DF
  time_stamp : Int
deriving DecidableEq

/-- Body of ontology_validator after the hash-column guard (validator.py
lines 92-160), for a run whose validation_config carries an iso2 rule (the
one validator whose source is part of the repository).  error_index_df is
represented by its row positions (its index after reset_index) and its
"index" column (the original row labels); clean_df keeps the rows of the
input whose label survives the set difference of line 160, which subtracts
the positional index of error_index_df from the original labels. -/
def ovCore (fuzzy : String → Bool) (iso_2 : List String) (df : DF) (tol : ℚ)
    (iso2_rule : Option (List String)) (hash_col : List String) : OVOut :=
  let result_index0 : CellTable :=
    ⟨hash_col.map (fun c => (c, (getCol df c).getD [])), []⟩
  let acc1 :=
    match iso2_rule with
    | some rule => validate_iso2 fuzzy iso_2 df rule ([], result_index0)
    | none => ([], result_index0)
  let result_df := dropDuplicates acc1.1
  let fails := failPositions acc1.2 df.nRows
  { pass_validation := passValidation result_df
    error_df := errorRows result_df
    pass_hard_validation := passHardValidation result_df
    hard_error_df := hardErrorRows result_df
    pass_soft_validation := passSoftValidation tol result_df
    soft_error_df := softErrorRows tol result_df
    cell_table := acc1.2
    error_index_positions := fails
    error_index_labels := fails.map (fun i => df.index.getD i 0)
    clean_df := filterRows df (fun lbl => !((fails.map (fun i => (i : Int))).contains lbl))
    time_stamp := 0 }

/-- Message of the KeyError raised by validator.py line 91. -/
def missingHashMsg : String := "hash columns not in input df columns"

/-- ontology_validator (validator.py lines 17-180): the hash-column guard of
lines 90-91 runs before any validator; on success the body computes the
tables and stamps the run timestamp on them. -/
def ontology_validator (fuzzy : String → Bool) (iso_2 : List String) (ts : Int)
    (df : DF) (error_tolerance : ℚ) (iso2_rule : Option (List String))
    (hash_col : List String) : Except String OVOut :=
  if hash_col.all (fun c => df.columns.contains c) then
    .ok { ovCore fuzzy iso_2 df error_tolerance iso2_rule hash_col with time_stamp := ts }
  else
    .error missingHashMsg

/-- Normalize the run timestamp, modelling dropping the time_stamp column. -/
def stripTimestamp (o : OVOut) : OVOut := { o with time_stamp := 0 }

/-- ColumnBinner (ColumnBinner.py lines 12-37): stateless configuration. -/
structure ColumnBinner where
  from_column : String
  to_column : String
  bins : List ℚ
  labels : List String
deriving DecidableEq

/-- Whether a list of split points is strictly increasing, the shape pd.cut
demands of its bins. -/
def strictAscending : List ℚ → Bool
  | [] => true
  | [_] => true
  | a :: b :: rest => decide (a < b) && strictAscending (b :: rest)

/-- Interval search of pd.cut with its default right=True and
include_lowest=False: the first i with bins[i] < q <= bins[i+1]. -/
def pdCutIdx (bins : List ℚ) (q : ℚ) : Option Nat :=
  match bins with
  | b0 :: b1 :: rest =>
      if b0 < q ∧ q ≤ b1 then some 0
      else (pdCutIdx (b1 :: rest) q).map (· + 1)
  | _ => none

/-- Per-cell result of the pandas branch of ColumnBinner.transform (lines
77-79): pd.cut followed by astype("str") turns an unmatched (out-of-range)
value into the string "nan", and the null_filter assignment restores nulls.
The string case is unreachable behind the numeric-column guard, since pd.cut
rejects non-numeric data. -/
def binCell (bins : List ℚ) (labels : List String) (v : CellValue) : CellValue :=
  match v with
  | .vnull => .vnull
  | .vnum q =>
      match pdCutIdx bins q with
      | some i => .vstr (labels.getD i "nan")
      | none => .vstr "nan"
  | .vstr _ => .vstr "nan"

/-- ColumnBinner.transform, pandas branch (ColumnBinner.py lines 73-80).
The source raises when from_column is absent (X[self.from_column]), when the
column is not numeric, or when pd.cut rejects the bins/labels configuration
(labels must number one fewer than the bins, bins strictly increasing).
The new column is written into the caller's frame in place, so the frame the
caller holds after the call is the returned frame. -/
def ColumnBinner.transform (b : ColumnBinner) (X : DF) : Except String DF :=
  match getCol X b.from_column with
  | none => .error "KeyError"
  | some cells =>
      if cells.all CellValue.isNumOrNull then
        if (b.labels.length + 1 == b.bins.length) && strictAscending b.bins then
          .ok (setCol X b.to_column (cells.map (binCell b.bins b.labels)))
        else .error "ValueError"
      else .error "TypeError"

/-- Projection used to observe the success of a run. -/
def exceptIsOk {ε α : Type} : Except ε α → Bool
  | .ok _ => true
  | .error _ => false

/-- Fuzzy matcher finding no match, for inputs where the fuzzy branch is
either unused or exercised as a lookup failure. -/
def noFuzzy : String → Bool := fun _ => false

/-- Tiny ISO-2 code table holding only the code for the United States. -/
def iso2us : List String := ["us"]

/-- Three-row country column with one deny-listed value; its iso2 failure
rate 1/3 sits below a tolerance of 1/2. -/
def dfSoft : DF := ⟨[("country", [.vstr "US", .vstr "Europe", .vstr "US"])], [0, 1, 2]⟩

/-- Two-row frame with the non-default index [1, 2]; the row at position 0
(label 1) fails the iso2 rule. -/
def dfShifted : DF := ⟨[("country", [.vstr "Europe", .vstr "US"])], [1, 2]⟩

/-- One-row frame passing the iso2 rule. -/
def dfValid : DF := ⟨[("country", [.vstr "US"])], [0]⟩

/-- SummaryRow of an allowed_values failure as the spec's Scenario 2
produces it: the validation_rule field records the allowed set, one of three
rows offends. -/
def allowedValuesRow : SummaryRow :=
  ⟨"col1", "allowed_values", "[1, 2, 4]", false, 1, mkRat 1 3, [.vnum 5]⟩

/-- Binner from column a to column b with bins [0, 10, 20], labels low/high. -/
def binLowHigh : ColumnBinner := ⟨"a", "b", [0, 10, 20], ["low", "high"]⟩

/-- Source column exercising an in-range value, a last-bin value, a null and
an out-of-range value. -/
def binCells : List CellValue := [.vnum 5, .vnum 15, .vnull, .vnum 25]

/-- Frame holding binCells in column a. -/
def dfBinnable : DF := ⟨[("a", binCells)], [0, 1, 2, 3]⟩

/-- Result of transforming dfBinnable with binLowHigh. -/
def dfBinnableOut : DF :=
  ⟨[("a", binCells),
    ("b", [.vstr "low", .vstr "high", .vnull, .vstr "nan"])], [0, 1, 2, 3]⟩

/-- One-row frame holding the shared boundary value 10. -/
def dfBoundary : DF := ⟨[("a", [.vnum 10])], [0]⟩

theorem mem_dropDupAux {α : Type} [DecidableEq α] (v : α) :
    ∀ (l seen : List α), v ∈ dropDupAux seen l ↔ v ∈ l ∧ v ∉ seen := by
  intro l
  induction l with
  | nil => intro seen; simp [dropDupAux]
  | cons r rest ih =>
      intro seen
      by_cases hv : v = r
      · subst hv
        by_cases hr : v ∈ seen
        · simp [dropDupAux, List.contains, List.elem_iff, hr, ih]
        · simp [dropDupAux, List.contains, List.elem_iff, hr]
      · by_cases hr : r ∈ seen
        · simp [dropDupAux, List.contains, List.elem_iff, hr, ih, hv]
        · simp [dropDupAux, List.contains, List.elem_iff, hr, ih, hv]

theorem mem_dropDuplicates {α : Type} [DecidableEq α] (v : α) (l : List α) :
    v ∈ dropDuplicates l ↔ v ∈ l := by
  simp [dropDuplicates, mem_dropDupAux]

theorem getCol_eq_none (df : DF) (c : String) (h : c ∉ df.columns) :
    getCol df c = none := by
  have hfind : df.cols.find? (fun p => p.1 == c) = none := by
    refine List.find?_eq_none.mpr (fun x hx => ?_)
    simp only [beq_iff_eq]
    intro hxc
    exact h (hxc ▸ List.mem_map_of_mem Prod.fst hx)
  simp [getCol, hfind]

theorem find?_map_set_hit {β : Type} (c : String) (v : β) :
    ∀ l : List (String × β), (l.map Prod.fst).contains c = true →
      (l.map (fun p => if p.1 == c then (c, v) else p)).find? (fun p => p.1 == c)
        = some (c, v) := by
  intro l
  induction l with
  | nil => simp [List.contains]
  | cons p rest ih =>
      intro hc
      by_cases hp : p.1 = c
      · rw [List.map_cons, if_pos (by simp [hp]), List.find?_cons_of_pos _ (by simp)]
      · have hcm : c ∈ (p :: rest).map Prod.fst :=
          List.elem_iff.mp (by simpa [List.contains] using hc)
        rw [List.map_cons] at hcm
        have hc' : (rest.map Prod.fst).contains c = true := by
          rcases List.mem_cons.mp hcm with h1 | h1
          · exact absurd h1.symm hp
          · simpa [List.contains] using List.elem_iff.mpr h1
        rw [List.map_cons, if_neg (by simp [hp]), List.find?_cons_of_neg _ (by simp [hp])]
        exact ih hc'

theorem find?_map_set_miss {β : Type} (c c' : String) (v : β) (h : c' ≠ c) :
    ∀ l : List (String × β),
      (l.map (fun p => if p.1 == c then (c, v) else p)).find? (fun p => p.1 == c')
        = l.find? (fun p => p.1 == c') := by
  intro l
  induction l with
  | nil => simp
  | cons p rest ih =>
      by_cases hp : p.1 = c
      · have hb : ¬(c = c') := fun hh => h (hh ▸ rfl)
        have hb' : ¬(p.1 = c') := hp ▸ hb
        rw [List.map_cons, if_pos (by simp [hp]),
          List.find?_cons_of_neg _ (by simp [hb]),
          List.find?_cons_of_neg _ (by simp [hb'])]
        exact ih
      · by_cases hp' : p.1 = c'
        · rw [List.map_cons, if_neg (by simp [hp]),
            List.find?_cons_of_pos _ (by simp [hp']),
            List.find?_cons_of_pos _ (by simp [hp'])]
        · rw [List.map_cons, if_neg (by simp [hp]),
            List.find?_cons_of_neg _ (by simp [hp']),
            List.find?_cons_of_neg _ (by simp [hp'])]
          exact ih

theorem getCol_setCol_self (df : DF) (c : String) (vals : List CellValue) :
    getCol (setCol df c vals) c = some vals := by
  unfold setCol
  by_cases hc : df.columns.contains c
  · simp only [hc, if_true, getCol]
    rw [find?_map_set_hit c vals df.cols hc]
    rfl
  · simp only [hc, if_false, Bool.false_eq_true, getCol]
    have : (df.cols ++ [(c, vals)]).find? (fun p => p.1 == c)
        = (df.cols.find? (fun p => p.1 == c)).or ([(c, vals)].find? (fun p => p.1 == c)) :=
      List.find?_append
    rw [this]
    have hnone : df.cols.find? (fun p => p.1 == c) = none := by
      refine List.find?_eq_none.mpr (fun x hx => ?_)
      simp only [beq_iff_eq]
      intro hxc
      have hmem : c ∈ df.columns := hxc ▸ List.mem_map_of_mem Prod.fst hx
      exact hc (List.elem_iff.mpr hmem)
    simp [hnone, List.find?]

theorem getCol_setCol_ne (df : DF) (c c' : String) (vals : List CellValue)
    (h : c' ≠ c) : getCol (setCol df c vals) c' = getCol df c' := by
  unfold setCol
  by_cases hc : df.columns.contains c
  · simp only [hc, if_true, getCol]
    rw [find?_map_set_miss c c' vals h df.cols]
  · simp only [hc, if_false, Bool.false_eq_true, getCol]
    rw [List.find?_append]
    have hb : (c == c') = false := by
      simp only [beq_eq_false_iff_ne, ne_eq]
      intro hh
      exact h hh.symm
    have hlast : ([(c, vals)].find? (fun p => p.1 == c')) = none := by
      simp [List.find?, hb]
    rw [hlast]
    cases df.cols.find? (fun p => p.1 == c') <;> rfl

theorem map_set_of_not_mem (c : String) (vals : List CellValue)
    (l : List (String × List CellValue)) (h : c ∉ l.map Prod.fst) :
    l.map (fun p => if p.1 == c then (c, vals) else p) = l := by
  have h1 : l.map (fun p => if p.1 == c then (c, vals) else p) = l.map id :=
    List.map_congr_left (fun p hp => by
      have hne : p.1 ≠ c := fun hh => h (hh ▸ List.mem_map_of_mem Prod.fst hp)
      simp [hne])
  simpa using h1

theorem mem_columns_setCol (df : DF) (c : String) (vals : List CellValue) :
    c ∈ (setCol df c vals).columns := by
  rw [setCol]
  by_cases hc : df.columns.contains c = true
  · rw [if_pos hc]
    have hcm : c ∈ df.cols.map Prod.fst := List.elem_iff.mp hc
    rcases List.mem_map.mp hcm with ⟨p, hp, hpc⟩
    show c ∈ List.map Prod.fst _
    rw [List.map_map]
    refine List.mem_map.mpr ⟨p, hp, ?_⟩
    by_cases hpb : p.1 = c
    · simp [Function.comp, hpb]
    · exact absurd hpc hpb
  · rw [if_neg hc]
    show c ∈ List.map Prod.fst _
    rw [List.map_append]
    exact List.mem_append.mpr (Or.inr (by simp))

theorem setCol_setCol_self (df : DF) (c : String) (vals : List CellValue) :
    setCol (setCol df c vals) c vals = setCol df c vals := by
  have hcont : (setCol df c vals).columns.contains c = true :=
    List.elem_iff.mpr (mem_columns_setCol df c vals)
  conv_lhs => rw [setCol]
  rw [if_pos hcont]
  have hcols : (setCol df c vals).cols.map
      (fun p => if p.1 == c then (c, vals) else p) = (setCol df c vals).cols := by
    rw [setCol]
    by_cases hc : df.columns.contains c = true
    · rw [if_pos hc]
      show List.map _ (List.map _ _) = _
      rw [List.map_map]
      refine List.map_congr_left (fun p _ => ?_)
      by_cases hp : p.1 = c
      · simp [Function.comp, hp]
      · simp [Function.comp, hp]
    · rw [if_neg hc]
      show List.map _ (_ ++ _) = _
      rw [List.map_append]
      have hnm : c ∉ df.cols.map Prod.fst := fun hmem =>
        hc (List.elem_iff.mpr hmem)
      rw [map_set_of_not_mem c vals df.cols hnm]
      simp
  rw [hcols]

theorem iso2InvalidList_isString (f : String → Bool) (i2 : List String)
    (cells : List CellValue) :
    ∀ v ∈ iso2InvalidList f i2 cells, v.isString = true := by
  intro v hv
  rcases List.mem_filter.mp hv with ⟨_, hpred⟩
  cases v with
  | vnull => simp at hpred
  | vstr s => rfl
  | vnum q => simp at hpred

theorem iso2CellMask_getElem (f : String → Bool) (i2 : List String)
    (cells : List CellValue) (j : Nat) (v : CellValue) (h : cells[j]? = some v) :
    (iso2CellMask f i2 cells)[j]?
      = some (!((iso2InvalidList f i2 cells).contains v)) := by
  unfold iso2CellMask
  rw [List.getElem?_map, h]
  rfl

theorem contains_iso2InvalidList_str (f : String → Bool) (i2 : List String)
    (cells : List CellValue) (s : String) (hmem : CellValue.vstr s ∈ cells) :
    (iso2InvalidList f i2 cells).contains (CellValue.vstr s) = iso2Invalid f i2 s := by
  by_cases hinv : iso2Invalid f i2 s = true
  · rw [hinv]
    refine List.elem_iff.mpr (List.mem_filter.mpr ⟨(mem_dropDuplicates _ _).mpr hmem, ?_⟩)
    simpa using hinv
  · have hb : iso2Invalid f i2 s = false := by simpa using hinv
    rw [hb]
    cases hcontains : (iso2InvalidList f i2 cells).contains (CellValue.vstr s)
    · rfl
    · exfalso
      have hm := List.elem_iff.mp hcontains
      have hpred := (List.mem_filter.mp hm).2
      simp [hb] at hpred

theorem contains_iso2InvalidList_nonstr (f : String → Bool) (i2 : List String)
    (cells : List CellValue) (v : CellValue) (hv : v.isString = false) :
    (iso2InvalidList f i2 cells).contains v = false := by
  cases hcontains : (iso2InvalidList f i2 cells).contains v
  · rfl
  · exfalso
    have hm := List.elem_iff.mp hcontains
    have := iso2InvalidList_isString f i2 cells v hm
    rw [hv] at this
    exact Bool.false_ne_true this

theorem iso2Invalid_iff (f : String → Bool) (i2 : List String) (s : String) :
    iso2Invalid f i2 s = true ↔
      (pyLower s ∈ unallowed_values ∨ containsWorld (pyLower s) = true
       ∨ ((pyLower s).length = 2 ∧ pyLower s ∉ i2)
       ∨ ((pyLower s).length ≠ 2 ∧ f (pyLower s) = false)) := by
  unfold iso2Invalid
  by_cases h1 : unallowed_values.contains (pyLower s) = true
  · have hm : pyLower s ∈ unallowed_values := List.elem_iff.mp h1
    simp [h1, hm]
  · have hnm : pyLower s ∉ unallowed_values := fun hm => h1 (List.elem_iff.mpr hm)
    by_cases h2 : containsWorld (pyLower s) = true
    · simp [h1, h2]
    · have h2' : containsWorld (pyLower s) = false := by simpa using h2
      by_cases h3 : (pyLower s).length = 2
      · by_cases h4 : i2.contains (pyLower s) = true
        · have hm4 : pyLower s ∈ i2 := List.elem_iff.mp h4
          simp [h1, h2', h3, h4, hnm, hm4]
        · have hnm4 : pyLower s ∉ i2 := fun hm => h4 (List.elem_iff.mpr hm)
          have h4' : i2.contains (pyLower s) = false := by simpa using h4
          simp [h1, h2', h3, h4', hnm, hnm4]
      · by_cases h5 : f (pyLower s) = true
        · simp [h1, h2', h3, h5, hnm]
        · have h5' : f (pyLower s) = false := by simpa using h5
          simp [h1, h2', h3, h5', hnm]

theorem strictAscending_tail (b0 b1 : ℚ) (rest : List ℚ)
    (h : strictAscending (b0 :: b1 :: rest) = true) :
    b0 < b1 ∧ strictAscending (b1 :: rest) = true := by
  have h' := h
  unfold strictAscending at h'
  rcases Bool.and_eq_true_iff.mp h' with ⟨ha, hb⟩
  exact ⟨of_decide_eq_true ha, hb⟩

theorem strictAscending_head_le (l : List ℚ) :
    ∀ (x : ℚ), strictAscending (x :: l) = true → ∀ a ∈ x :: l, x ≤ a := by
  induction l with
  | nil =>
      intro x _ a ha
      rcases List.mem_cons.mp ha with h1 | h1
      · exact le_of_eq h1.symm
      · simp at h1
  | cons y rest ih =>
      intro x hs a ha
      rcases strictAscending_tail x y rest hs with ⟨hxy, htail⟩
      rcases List.mem_cons.mp ha with h1 | h1
      · exact le_of_eq h1.symm
      · exact le_of_lt (lt_of_lt_of_le hxy (ih y htail a h1))

theorem pdCutIdx_spec : ∀ (bins : List ℚ), strictAscending bins = true → ∀ (q : ℚ) (i : Nat),
    (pdCutIdx bins q = some i ↔
      ∃ a c, bins[i]? = some a ∧ bins[i + 1]? = some c ∧ a < q ∧ q ≤ c) := by
  intro bins
  induction bins with
  | nil => intro _ q i; simp [pdCutIdx]
  | cons b0 tail ih =>
      intro hs q i
      cases tail with
      | nil =>
          constructor
          · intro h; simp [pdCutIdx] at h
          · rintro ⟨a, c, _, hc, _, _⟩
            rcases i with _ | j <;> simp at hc
      | cons b1 rest =>
          rcases strictAscending_tail b0 b1 rest hs with ⟨hab, htail⟩
          by_cases h0 : b0 < q ∧ q ≤ b1
          · rw [pdCutIdx, if_pos h0]
            constructor
            · intro h
              have hi : i = 0 := by
                injection h with h'
                exact h'.symm
              subst hi
              exact ⟨b0, b1, by simp, by simp, h0.1, h0.2⟩
            · rintro ⟨a, c, ha, _, haq, _⟩
              cases i with
              | zero => rfl
              | succ j =>
                  exfalso
                  have hmem : a ∈ b1 :: rest := List.getElem?_mem (by simpa using ha)
                  have hb1a : b1 ≤ a := strictAscending_head_le rest b1 htail a hmem
                  exact lt_irrefl a (lt_of_lt_of_le haq (le_trans h0.2 hb1a))
          · rw [pdCutIdx, if_neg h0]
            cases i with
            | zero =>
                constructor
                · intro h
                  rcases Option.map_eq_some'.mp h with ⟨j, _, hj⟩
                  simp at hj
                · rintro ⟨a, c, ha, hc, haq, hqc⟩
                  have ha' : a = b0 := by simpa using ha.symm
                  have hc' : c = b1 := by simpa using hc.symm
                  subst ha'; subst hc'
                  exact absurd ⟨haq, hqc⟩ h0
            | succ j =>
                have hmap : ((pdCutIdx (b1 :: rest) q).map (· + 1) = some (j + 1))
                    ↔ pdCutIdx (b1 :: rest) q = some j := by
                  cases hsx : pdCutIdx (b1 :: rest) q <;> simp [hsx]
                rw [hmap, ih htail q j]
                simp

/-- C1, counterexample: on a run whose only failure is a soft iso2 failure
with error rate 1/3, below the tolerance 1/2, ontology_validator returns
overall pass false while hard-pass and soft-pass are both true, so overall
pass is not equivalent to the conjunction of hard-pass and soft-pass. -/
theorem C1_counterexample :
    (ontology_validator noFuzzy iso2us 7 dfSoft (mkRat 1 2) (some ["country"]) []).map
      (fun o => (o.pass_validation, o.pass_hard_validation, o.pass_soft_validation))
    = Except.ok (false, true, true) := rfl

/-- C1, amended: the overall verdict of ontology_validator is true exactly
when the error summary is empty, hence it implies both the hard-pass and the
soft-pass verdicts; the converse fails (see the counterexample). -/
theorem C1_overall_pass_implies_hard_and_soft (rows : List SummaryRow) (tol : ℚ)
    (h : passValidation rows = true) :
    passHardValidation rows = true ∧ passSoftValidation tol rows = true := by
  have herr : errorRows rows = [] := List.isEmpty_iff.mp h
  constructor
  · unfold passHardValidation hardErrorRows
    rw [herr]
    rfl
  · unfold passSoftValidation softErrorRows softErrorRowsAll
    rw [herr]
    rfl

/-- C1, witness for the amended theorem at the empty summary table. -/
theorem C1_overall_pass_implies_hard_and_soft_witness :
    passValidation [] = true
    ∧ (passHardValidation [] = true ∧ passSoftValidation 0 [] = true) :=
  ⟨rfl, C1_overall_pass_implies_hard_and_soft [] 0 rfl⟩

/-- C2, code evaluation at the failing input: a failing allowed_values
SummaryRow whose validation_rule field records the allowed set is not
classified as hard by the split of validator.py line 149, which filters on
the validation_rule field instead of validation_type, so hard-pass stays
true despite a hard-kind rule with count positive. -/
theorem C2_hard_split_reads_validation_rule_field :
    allowedValuesRow.validation_type ∈ hard_validation
    ∧ allowedValuesRow.pass = false
    ∧ allowedValuesRow.count ≠ 0
    ∧ hardErrorRows [allowedValuesRow] = []
    ∧ passHardValidation [allowedValuesRow] = true :=
  ⟨by decide, rfl, by decide, rfl, rfl⟩

/-- C3, code evaluation at the failing input: on a frame indexed [1, 2]
whose row at position 0 fails the iso2 rule, ontology_validator reports
position 0 (label 1) as failing yet returns the whole input as clean_df,
because line 160 subtracts the positional index of error_index_df from the
original row labels; the failing row survives in the clean frame. -/
theorem C3_clean_df_keeps_failing_row :
    (ontology_validator noFuzzy iso2us 0 dfShifted (mkRat 5 100) (some ["country"]) []).map
      (fun o => (o.error_index_positions, o.error_index_labels, o.clean_df))
    = Except.ok ([0], [1], dfShifted) := rfl

/-- C4: a run succeeds exactly when every hash column occurs among the input
columns, and a failing run returns the same bare error whatever the
validator inputs are, since the guard of validator.py lines 90-91 raises
before any validator executes and the error carries no tables. -/
theorem C4_missing_hash_fails_before_validators
    (fuzzy fuzzy' : String → Bool) (i2 i2' : List String) (ts : Int) (df : DF)
    (tol : ℚ) (rule rule' : Option (List String)) (hash_col : List String) :
    (exceptIsOk (ontology_validator fuzzy i2 ts df tol rule hash_col)
        = hash_col.all (fun c => df.columns.contains c))
    ∧ (hash_col.all (fun c => df.columns.contains c) = false →
        ontology_validator fuzzy i2 ts df tol rule hash_col
          = ontology_validator fuzzy' i2' ts df tol rule' hash_col) := by
  unfold ontology_validator
  by_cases h : hash_col.all (fun c => df.columns.contains c) = true
  · rw [if_pos h, if_pos h]
    exact ⟨by rw [h]; rfl, fun hfalse => absurd h (by rw [hfalse]; exact Bool.false_ne_true)⟩
  · rw [if_neg h, if_neg h]
    have hfalse : hash_col.all (fun c => df.columns.contains c) = false := by
      simpa using h
    exact ⟨by rw [hfalse]; rfl, fun _ => rfl⟩

/-- C4, witness: with hash column h absent from the input, the run fails
identically for two different validator configurations. -/
theorem C4_missing_hash_fails_before_validators_witness :
    ontology_validator noFuzzy iso2us 0 dfValid (mkRat 1 2) (some ["country"]) ["h"]
    = ontology_validator (fun _ => true) [] 0 dfValid (mkRat 1 2) none ["h"] :=
  (C4_missing_hash_fails_before_validators noFuzzy (fun _ => true) iso2us [] 0
    dfValid (mkRat 1 2) (some ["country"]) none ["h"]).2 rfl

/-- C7: two runs of ontology_validator on the same inputs differing only in
the run timestamp agree on every returned table and verdict once the
stamped timestamp is dropped. -/
theorem C7_rerun_identical_modulo_timestamp
    (fuzzy : String → Bool) (i2 : List String) (ts1 ts2 : Int) (df : DF)
    (tol : ℚ) (rule : Option (List String)) (hash_col : List String) :
    (ontology_validator fuzzy i2 ts1 df tol rule hash_col).map stripTimestamp
    = (ontology_validator fuzzy i2 ts2 df tol rule hash_col).map stripTimestamp := by
  unfold ontology_validator
  by_cases h : hash_col.all (fun c => df.columns.contains c) = true
  · rw [if_pos h, if_pos h]
    rfl
  · rw [if_neg h, if_neg h]

/-- C8: a rule column absent from the input frame is silently skipped by
validate_iso2 — running with the column in the rule list equals running
without it, so no summary row and no cell column is emitted for it and the
remaining columns are still processed. -/
theorem C8_absent_column_skipped (fuzzy : String → Bool) (i2 : List String)
    (df : DF) (col : String) (pre post : List String)
    (acc : List SummaryRow × CellTable) (h : col ∉ df.columns) :
    validate_iso2 fuzzy i2 df (pre ++ col :: post) acc
    = validate_iso2 fuzzy i2 df (pre ++ post) acc := by
  unfold validate_iso2
  rw [List.foldl_append, List.foldl_append, List.foldl_cons]
  have hstep : iso2Step fuzzy i2 df (List.foldl (iso2Step fuzzy i2 df) acc pre) col
      = List.foldl (iso2Step fuzzy i2 df) acc pre := by
    unfold iso2Step
    rw [getCol_eq_none df col h]
  rw [hstep]

/-- C8, witness: skipping the absent column missing between country and an
empty tail gives the same tables as not listing it. -/
theorem C8_absent_column_skipped_witness :
    validate_iso2 noFuzzy iso2us dfValid (["country"] ++ "missing" :: []) ([], ⟨[], []⟩)
    = validate_iso2 noFuzzy iso2us dfValid (["country"] ++ []) ([], ⟨[], []⟩) :=
  C8_absent_column_skipped noFuzzy iso2us dfValid "missing" ["country"] []
    ([], ⟨[], []⟩) (by decide)

/-- C10: the iso2 mask passes every non-string cell, nulls and numbers
included, since only string values are collected into the invalid set; and
validate_iso2 emits exactly that mask as the cell column of a present
column. -/
theorem C10_nonstring_cells_pass (fuzzy : String → Bool) (i2 : List String) :
    (∀ (cells : List CellValue) (j : Nat) (v : CellValue),
        cells[j]? = some v → v.isString = false →
        (iso2CellMask fuzzy i2 cells)[j]? = some true)
    ∧ (∀ (df : DF) (col : String) (cells : List CellValue)
        (acc : List SummaryRow × CellTable), getCol df col = some cells →
        (validate_iso2 fuzzy i2 df [col] acc).2.boolCols
          = acc.2.boolCols ++ [(col ++ "_" ++ "iso2", iso2CellMask fuzzy i2 cells)]) := by
  constructor
  · intro cells j v h hv
    rw [iso2CellMask_getElem fuzzy i2 cells j v h,
      contains_iso2InvalidList_nonstr fuzzy i2 cells v hv]
    rfl
  · intro df col cells acc hget
    unfold validate_iso2
    rw [List.foldl_cons, List.foldl_nil]
    unfold iso2Step
    rw [hget]
    rfl

/-- C10, witness: a null cell passes, and the emitted cell column on a
present column is the mask itself. -/
theorem C10_nonstring_cells_pass_witness :
    (iso2CellMask noFuzzy iso2us [CellValue.vnull, CellValue.vnum 3])[0]? = some true
    ∧ (validate_iso2 noFuzzy iso2us dfValid ["country"] ([], ⟨[], []⟩)).2.boolCols
        = [] ++ [("country" ++ "_" ++ "iso2", iso2CellMask noFuzzy iso2us [CellValue.vstr "US"])] :=
  ⟨(C10_nonstring_cells_pass noFuzzy iso2us).1 [CellValue.vnull, CellValue.vnum 3] 0
      CellValue.vnull rfl rfl,
   (C10_nonstring_cells_pass noFuzzy iso2us).2 dfValid "country" [CellValue.vstr "US"]
      ([], ⟨[], []⟩) rfl⟩

/-- C5, counterexample: the one-character string "#" has no deny-list hit,
no "world" substring, length other than 2 and no fuzzy match, so the claim's
disjunction — which flags fuzzy-lookup failures only for values longer than
2 characters — calls it valid, yet validate_iso2 marks it invalid: the code
sends every value whose length differs from 2 through the fuzzy lookup. -/
theorem C5_counterexample :
    iso2CellMask noFuzzy iso2us [CellValue.vstr "#"] = [false]
    ∧ ¬(pyLower "#" ∈ unallowed_values ∨ containsWorld (pyLower "#") = true
        ∨ ((pyLower "#").length = 2 ∧ pyLower "#" ∉ iso2us)
        ∨ ((pyLower "#").length > 2 ∧ noFuzzy (pyLower "#") = false)) :=
  ⟨by decide, by decide⟩

/-- C5, amended: a string cell is marked invalid by the iso2 mask exactly
when its lowered value is deny-listed or contains "world", or has length 2
and is no ISO-2 code, or has length other than 2 (rather than only longer)
and no fuzzy match; on the scenario column US, Europe, XX the mask is
true, false, false. -/
theorem C5_iso2_invalid_characterization :
    (∀ (fuzzy : String → Bool) (i2 : List String) (cells : List CellValue)
        (j : Nat) (s : String), cells[j]? = some (CellValue.vstr s) →
        ((iso2CellMask fuzzy i2 cells)[j]? = some false ↔
          (pyLower s ∈ unallowed_values ∨ containsWorld (pyLower s) = true
           ∨ ((pyLower s).length = 2 ∧ pyLower s ∉ i2)
           ∨ ((pyLower s).length ≠ 2 ∧ fuzzy (pyLower s) = false))))
    ∧ iso2CellMask noFuzzy iso2us [.vstr "US", .vstr "Europe", .vstr "XX"]
        = [true, false, false] := by
  constructor
  · intro fuzzy i2 cells j s h
    rw [iso2CellMask_getElem fuzzy i2 cells j (CellValue.vstr s) h,
      contains_iso2InvalidList_str fuzzy i2 cells s (List.getElem?_mem h),
      ← iso2Invalid_iff fuzzy i2 s]
    constructor
    · intro hsome
      have hval := Option.some.inj hsome
      cases hinv : iso2Invalid fuzzy i2 s
      · rw [hinv] at hval
        simp at hval
      · rfl
    · intro hinv
      rw [hinv]
      rfl
  · decide

/-- C5, witness for the amended characterization at the deny-listed value
Europe sitting at position 1 of the scenario column. -/
theorem C5_iso2_invalid_characterization_witness :
    (iso2CellMask noFuzzy iso2us
        [.vstr "US", .vstr "Europe", .vstr "XX"])[1]? = some false :=
  ((C5_iso2_invalid_characterization).1 noFuzzy iso2us
      [.vstr "US", .vstr "Europe", .vstr "XX"] 1 "Europe" rfl).mpr (by decide)

theorem transform_ok_elim (b : ColumnBinner) (X out : DF)
    (hok : ColumnBinner.transform b X = Except.ok out) :
    ∃ cells, getCol X b.from_column = some cells
      ∧ cells.all CellValue.isNumOrNull = true
      ∧ ((b.labels.length + 1 == b.bins.length) && strictAscending b.bins) = true
      ∧ out = setCol X b.to_column (cells.map (binCell b.bins b.labels)) := by
  unfold ColumnBinner.transform at hok
  cases hcells : getCol X b.from_column with
  | none =>
      rw [hcells] at hok
      cases hok
  | some cells =>
      rw [hcells] at hok
      dsimp only at hok
      by_cases hnum : cells.all CellValue.isNumOrNull = true
      · rw [if_pos hnum] at hok
        by_cases hguard :
            ((b.labels.length + 1 == b.bins.length) && strictAscending b.bins) = true
        · rw [if_pos hguard] at hok
          refine ⟨cells, rfl, hnum, hguard, ?_⟩
          injection hok with h
          exact h.symm
        · rw [if_neg hguard] at hok
          cases hok
      · rw [if_neg hnum] at hok
        cases hok

/-- C6, counterexample: with bins [0, 10, 20] and labels low/high the value
10 is labeled low, because pd.cut bins are open on the left and closed on
the right — the claim's convention bins[1] <= 10 < bins[2] predicts high. -/
theorem C6_counterexample :
    ColumnBinner.transform binLowHigh dfBoundary
      = Except.ok ⟨[("a", [CellValue.vnum 10]), ("b", [CellValue.vstr "low"])], [0]⟩
    ∧ CellValue.vstr "low" ≠ CellValue.vstr "high" :=
  ⟨rfl, by decide⟩

/-- C6, amended: on a successful transform the output column labels a
numeric value with labels[i] exactly for the interval bins[i] < v <=
bins[i+1] (left boundary excluded, final boundary included), keeps null
cells null, and stores the non-null unmatched marker string nan for values
in no interval, which is precisely the out-of-interval condition. -/
theorem C6_binner_interval_characterization (b : ColumnBinner) (X out : DF)
    (cells : List CellValue) (j : Nat)
    (hok : ColumnBinner.transform b X = Except.ok out)
    (hcells : getCol X b.from_column = some cells) :
    (cells[j]? = some CellValue.vnull →
        (getCol out b.to_column).bind (fun l => l[j]?) = some CellValue.vnull)
    ∧ (∀ (q : ℚ) (i : Nat) (a c : ℚ), cells[j]? = some (CellValue.vnum q) →
        b.bins[i]? = some a → b.bins[i + 1]? = some c → a < q → q ≤ c →
        ∃ lab, b.labels[i]? = some lab ∧
          (getCol out b.to_column).bind (fun l => l[j]?) = some (CellValue.vstr lab))
    ∧ (∀ q : ℚ, cells[j]? = some (CellValue.vnum q) →
        (pdCutIdx b.bins q = none ↔
          ¬∃ i a c, b.bins[i]? = some a ∧ b.bins[i + 1]? = some c ∧ a < q ∧ q ≤ c)
        ∧ (pdCutIdx b.bins q = none →
            (getCol out b.to_column).bind (fun l => l[j]?)
              = some (CellValue.vstr "nan"))) := by
  rcases transform_ok_elim b X out hok with ⟨cells', hc', hnum, hguard, hout⟩
  rw [hcells] at hc'
  have hcc : cells = cells' := Option.some.inj hc'
  subst hcc
  have hcol : getCol out b.to_column = some (cells.map (binCell b.bins b.labels)) := by
    rw [hout]
    exact getCol_setCol_self X b.to_column _
  have hasc : strictAscending b.bins = true := (Bool.and_eq_true_iff.mp hguard).2
  have hlen : b.labels.length + 1 = b.bins.length := by
    have hb := (Bool.and_eq_true_iff.mp hguard).1
    simpa using hb
  refine ⟨?_, ?_, ?_⟩
  · intro hj
    rw [hcol]
    show (cells.map (binCell b.bins b.labels))[j]? = some CellValue.vnull
    rw [List.getElem?_map, hj]
    rfl
  · intro q i a c hj ha hc haq hqc
    have hidx : pdCutIdx b.bins q = some i :=
      (pdCutIdx_spec b.bins hasc q i).mpr ⟨a, c, ha, hc, haq, hqc⟩
    have hib : i + 1 < b.bins.length := (List.getElem?_eq_some_iff.mp hc).1
    have hil : i < b.labels.length := by omega
    refine ⟨b.labels[i], List.getElem?_eq_getElem hil, ?_⟩
    rw [hcol]
    show (cells.map (binCell b.bins b.labels))[j]? = _
    rw [List.getElem?_map, hj]
    have hbc : binCell b.bins b.labels (CellValue.vnum q)
        = match pdCutIdx b.bins q with
          | some i => CellValue.vstr (b.labels.getD i "nan")
          | none => CellValue.vstr "nan" := rfl
    show some (binCell b.bins b.labels (CellValue.vnum q)) = _
    rw [hbc, hidx]
    have hget : b.labels.getD i "nan" = b.labels[i] := by
      rw [List.getD_eq_getElem?_getD, List.getElem?_eq_getElem hil]
      rfl
    show some (CellValue.vstr (b.labels.getD i "nan")) = some (CellValue.vstr b.labels[i])
    rw [hget]
  · intro q hj
    constructor
    · constructor
      · rintro hnone ⟨i, a, c, ha, hc, haq, hqc⟩
        have := (pdCutIdx_spec b.bins hasc q i).mpr ⟨a, c, ha, hc, haq, hqc⟩
        rw [hnone] at this
        cases this
      · intro hno
        cases hx : pdCutIdx b.bins q with
        | none => rfl
        | some i =>
            exfalso
            rcases (pdCutIdx_spec b.bins hasc q i).mp hx with ⟨a, c, ha, hc, haq, hqc⟩
            exact hno ⟨i, a, c, ha, hc, haq, hqc⟩
    · intro hnone
      rw [hcol]
      show (cells.map (binCell b.bins b.labels))[j]? = _
      rw [List.getElem?_map, hj]
      have hbc : binCell b.bins b.labels (CellValue.vnum q)
          = match pdCutIdx b.bins q with
            | some i => CellValue.vstr (b.labels.getD i "nan")
            | none => CellValue.vstr "nan" := rfl
      show some (binCell b.bins b.labels (CellValue.vnum q)) = _
      rw [hbc, hnone]

/-- C6, witness: on the binnable frame the null cell at position 2 stays
null in the output column. -/
theorem C6_binner_interval_characterization_witness :
    (getCol dfBinnableOut binLowHigh.to_column).bind (fun l => l[2]?)
      = some CellValue.vnull :=
  (C6_binner_interval_characterization binLowHigh dfBinnable dfBinnableOut
    binCells 2 rfl rfl).1 rfl

/-- C9, counterexample: the pandas branch writes the new column into the
caller's frame in place, so the frame the caller holds after the call is the
returned frame, which differs from the original input — the claim that the
caller's dataframe object is not mutated fails. -/
theorem C9_counterexample :
    ColumnBinner.transform binLowHigh dfBinnable = Except.ok dfBinnableOut
    ∧ dfBinnableOut ≠ dfBinnable :=
  ⟨rfl, by decide⟩

/-- C9, amended: transform is stateless and touches only to_column — every
other column of the result equals its input column, and with distinct source
and target columns a second application returns the result unchanged — but
the pandas branch produces that result by mutating the caller's frame. -/
theorem C9_stateless_only_to_column (b : ColumnBinner) (X out : DF)
    (hne : b.from_column ≠ b.to_column)
    (hok : ColumnBinner.transform b X = Except.ok out) :
    (∀ c, c ≠ b.to_column → getCol out c = getCol X c)
    ∧ ColumnBinner.transform b out = Except.ok out := by
  rcases transform_ok_elim b X out hok with ⟨cells, hcells, hnum, hguard, hout⟩
  constructor
  · intro c hc
    rw [hout]
    exact getCol_setCol_ne X b.to_column c _ hc
  · have hgets : getCol out b.from_column = some cells := by
      rw [hout, getCol_setCol_ne X b.to_column b.from_column _ hne, hcells]
    unfold ColumnBinner.transform
    rw [hgets]
    dsimp only
    rw [if_pos hnum, if_pos hguard, hout, setCol_setCol_self]

/-- C9, witness: on the binnable frame the source column a is unchanged and
a second transform leaves the result fixed. -/
theorem C9_stateless_only_to_column_witness :
    getCol dfBinnableOut "a" = getCol dfBinnable "a"
    ∧ ColumnBinner.transform binLowHigh dfBinnableOut = Except.ok dfBinnableOut :=
  ⟨(C9_stateless_only_to_column binLowHigh dfBinnable dfBinnableOut
      (by decide) rfl).1 "a" (by decide),
   (C9_stateless_only_to_column binLowHigh dfBinnable dfBinnableOut
      (by decide) rfl).2⟩

end EtlValidator
